import Mathlib

/-!
Shallow embedding of the asynchronous-composition core of the repository:
deferred computations settled by timers, the parallel combinator
(`Promise.all` in src/level92/home/js.js), the sequential combinator
(`runSequential` in src/level92/home/js.js), the deferred-computation
state machine (src/level90/home/js.js), the handler-registration behaviour
(src/level91/work/js.js), the always-rejecting conditional promise of
src/level90/home/js.js, and the points counter of src/project/js2.js.

Time is modelled in milliseconds as `Nat`.  A deferred computation that is
driven by a timer is a pair of its delay and the outcome it settles with
when the timer fires; the cooperative single-threaded scheduling of the
source means settlement order is exactly delay order, ties broken by
registration order.
-/

/-- Terminal outcome of a settled deferred computation: `Fulfilled(value)`
or `Rejected(error)`. -/
inductive Outcome (α ε : Type) where
  | fulfilled (v : α)
  | rejected (e : ε)
deriving DecidableEq, Repr

/-- Whether an outcome is a fulfillment. -/
def Outcome.isFulfilled {α ε : Type} : Outcome α ε → Bool
  | .fulfilled _ => true
  | .rejected _ => false

/-- A timer-driven deferred computation, as built by
`new Promise(resolve => setTimeout(() => resolve(v), delay))` in the
source: it settles `delay` milliseconds after it starts, with `outcome`. -/
structure Deferred (α ε : Type) where
  delay : Nat
  outcome : Outcome α ε
deriving DecidableEq, Repr

/-- `p1` of src/level92/home/js.js: resolves with `"First"` after 1000ms. -/
def p1 : Deferred String String := ⟨1000, .fulfilled "First"⟩

/-- `p2` of src/level92/home/js.js: resolves with `"Second"` after 2000ms. -/
def p2 : Deferred String String := ⟨2000, .fulfilled "Second"⟩

/-- `p3` of src/level92/home/js.js: resolves with `"Third"` after 1500ms. -/
def p3 : Deferred String String := ⟨1500, .fulfilled "Third"⟩

/-- The rejecting inputs of a list of deferred computations, in input
order, each with its settlement time. -/
def rejections {α ε : Type} (ps : List (Deferred α ε)) : List (Nat × ε) :=
  ps.filterMap fun p =>
    match p.outcome with
    | .rejected e => some (p.delay, e)
    | .fulfilled _ => none

/-- The fulfilled values of a list of deferred computations, in input
order. -/
def fulfilledValues {α ε : Type} (ps : List (Deferred α ε)) : List α :=
  ps.filterMap fun p =>
    match p.outcome with
    | .fulfilled v => some v
    | .rejected _ => none

/-- The latest settlement time of a list of deferred computations (the
time at which all of them have settled). -/
def maxDelay {α ε : Type} (ps : List (Deferred α ε)) : Nat :=
  ps.foldr (fun p a => max p.delay a) 0

/-- The settlement that happens first: minimal time, ties broken in favour
of the earlier-registered timer, matching the source's event loop. -/
def earliest {ε : Type} : List (Nat × ε) → Option (Nat × ε)
  | [] => none
  | x :: xs =>
    match earliest xs with
    | none => some x
    | some y => some (if y.1 < x.1 then y else x)

/-- Modelled from the spec: the parallel combinator (`Promise.all`, a
runtime builtin whose implementation is not part of the repository,
specified in sections 4.2 and 7 of the spec).  If some input rejects, the
result rejects at the first rejection by settlement time with that error;
otherwise it fulfills once all inputs have settled, with their values in
input order.  The empty list fulfills immediately. -/
def promiseAll {α ε : Type} (ps : List (Deferred α ε)) : Deferred (List α) ε :=
  match earliest (rejections ps) with
  | some te => ⟨te.1, .rejected te.2⟩
  | none => ⟨maxDelay ps, .fulfilled (fulfilledValues ps)⟩

/-- An observable event of a sequential run: a step being invoked at a
time, or a fulfilled value being logged (`console.log`) at a time. -/
inductive Event (α : Type) where
  | invoke (time : Nat)
  | log (time : Nat) (v : α)
deriving DecidableEq, Repr

/-- Modelled from the spec (section 4.3), generalising `runSequential` of
src/level92/home/js.js from its fixed three steps to a list of steps: at
time `t`, invoke the head step; when it fulfills, log its value at its
settlement time and continue with the rest from that time; when it
rejects, stop and propagate the rejection as the chain's outcome.  Each
step is independent: no value is threaded to the next step. -/
def runSequential {α ε : Type} (t : Nat) :
    List (Deferred α ε) → List (Event α) × Outcome Unit ε
  | [] => ([], .fulfilled ())
  | s :: rest =>
    match s.outcome with
    | .rejected e => ([.invoke t], .rejected e)
    | .fulfilled v =>
      let r := runSequential (t + s.delay) rest
      (.invoke t :: .log (t + s.delay) v :: r.1, r.2)

/-- The times at which steps were invoked, in order. -/
def invokeTimes {α : Type} (evs : List (Event α)) : List Nat :=
  evs.filterMap fun e =>
    match e with
    | .invoke t => some t
    | .log _ _ => none

/-- The logged values, in log order. -/
def logValues {α : Type} (evs : List (Event α)) : List α :=
  evs.filterMap fun e =>
    match e with
    | .log _ v => some v
    | .invoke _ => none

/-- Whether every step of a chain fulfills. -/
def allFulfilled {α ε : Type} (steps : List (Deferred α ε)) : Bool :=
  steps.all fun s => s.outcome.isFulfilled

/-- The three steps of src/level92/home/js.js: `first`, `second`, `third`
await delays of 1000ms, 2000ms, 1500ms and return `"First"`, `"Second"`,
`"Third"`. -/
def demoSteps : List (Deferred String String) :=
  [⟨1000, .fulfilled "First"⟩, ⟨2000, .fulfilled "Second"⟩, ⟨1500, .fulfilled "Third"⟩]

/-- The state of a deferred computation, drawn as a diagram at the top of
src/level90/home/js.js: `PENDING`, `FULFILLED` (resolve) or `REJECTED`
(reject). -/
inductive PState (α ε : Type) where
  | pending
  | fulfilled (v : α)
  | rejected (e : ε)
deriving DecidableEq, Repr

/-- The `value` attribute: present only when fulfilled. -/
def PState.value {α ε : Type} : PState α ε → Option α
  | .fulfilled v => some v
  | _ => none

/-- The `error` attribute: present only when rejected. -/
def PState.error {α ε : Type} : PState α ε → Option ε
  | .rejected e => some e
  | _ => none

/-- Modelled from the spec (sections 3 and 4.1; the transition function of
the runtime promise is not part of the repository): settling a pending
computation moves it to the corresponding terminal state; settling an
already-settled computation is a no-op. -/
def settle {α ε : Type} (s : PState α ε) (o : Outcome α ε) : PState α ε :=
  match s with
  | .pending =>
    match o with
    | .fulfilled v => .fulfilled v
    | .rejected e => .rejected e
  | .fulfilled v => .fulfilled v
  | .rejected e => .rejected e

/-- A deferred computation together with the handlers (identified by
number) registered while it was pending and not yet fired. -/
structure DeferredCell (α ε : Type) where
  st : PState α ε
  handlers : List Nat
deriving DecidableEq, Repr

/-- Modelled from the spec (section 4.1) and the `.then` chains of
src/level91/work/js.js: registering a handler on a settled computation
fires it once with the stored outcome; on a pending one it is queued.
Returns the new cell and the handler firings this operation causes. -/
def register {α ε : Type} (d : DeferredCell α ε) (id : Nat) :
    DeferredCell α ε × List (Nat × Outcome α ε) :=
  match d.st with
  | .pending => (⟨.pending, d.handlers ++ [id]⟩, [])
  | .fulfilled v => (d, [(id, .fulfilled v)])
  | .rejected e => (d, [(id, .rejected e)])

/-- Modelled from the spec (section 4.1): settling a pending cell fires
every queued handler once with the outcome and empties the queue; settling
a settled cell is a no-op and fires nothing. -/
def settleCell {α ε : Type} (d : DeferredCell α ε) (o : Outcome α ε) :
    DeferredCell α ε × List (Nat × Outcome α ε) :=
  match d.st with
  | .pending => (⟨settle .pending o, []⟩, d.handlers.map fun id => (id, o))
  | _ => (d, [])

/-- The `students` array of src/level90/home/js.js. -/
def students : List String := ["nika", "nika", "gio", "alexi"]

/-- The settling logic of `MyPromise` in src/level90/home/js.js: pick the
student at the random index (`Math.floor(Math.random() * students.length)`
is always in `0..3`), resolve with `"success"` when the name is longer
than 5 characters, otherwise reject with `"failure"`. -/
def myPromiseOutcome (i : Fin students.length) : Outcome String String :=
  if (students.get i).length > 5 then .fulfilled "success" else .rejected "failure"

/-- `addPoint` of src/project/js2.js: `points++`. -/
def addPoint (points : Int) : Int := points + 1

/-- `add100` of src/project/js2.js: the body evaluates the expression
`points + 100` as a bare statement without assigning it, then updates the
display; the counter itself is returned unchanged. -/
def add100 (points : Int) : Int :=
  let _discarded := points + 100
  points

/-! ### Helper lemmas -/

theorem rejections_of_all_fulfilled {α ε : Type} :
    ∀ (ps : List (Deferred α ε)) (vs : List α),
      ps.map (fun p => p.outcome) = vs.map Outcome.fulfilled →
      rejections ps = [] ∧ fulfilledValues ps = vs := by
  intro ps
  induction ps with
  | nil =>
    intro vs h
    cases vs with
    | nil => exact ⟨rfl, rfl⟩
    | cons v vs => simp at h
  | cons p ps ih =>
    intro vs h
    cases vs with
    | nil => simp at h
    | cons v vs =>
      simp only [List.map_cons, List.cons.injEq] at h
      obtain ⟨h1, h2⟩ := h
      obtain ⟨r1, r2⟩ := ih vs h2
      refine ⟨?_, ?_⟩
      · simp [rejections, List.filterMap_cons, h1] at r1 ⊢
        exact r1
      · simp [fulfilledValues, List.filterMap_cons, h1] at r2 ⊢
        exact r2

theorem earliest_eq_none {ε : Type} :
    ∀ xs : List (Nat × ε), earliest xs = none ↔ xs = [] := by
  intro xs
  cases xs with
  | nil => simp [earliest]
  | cons x l =>
    simp only [earliest]
    cases earliest l <;> simp

theorem earliest_mem {ε : Type} :
    ∀ (xs : List (Nat × ε)) (x : Nat × ε), earliest xs = some x → x ∈ xs := by
  intro xs
  induction xs with
  | nil => intro x h; simp [earliest] at h
  | cons a l ih =>
    intro x h
    cases he : earliest l with
    | none =>
      simp only [earliest, he] at h
      injection h with h
      exact h ▸ List.mem_cons_self a l
    | some y =>
      simp only [earliest, he] at h
      injection h with h
      by_cases hy : y.1 < a.1
      · rw [if_pos hy] at h
        exact h ▸ List.mem_cons_of_mem a (ih y he)
      · rw [if_neg hy] at h
        exact h ▸ List.mem_cons_self a l

theorem earliest_min {ε : Type} :
    ∀ (xs : List (Nat × ε)) (x : Nat × ε), earliest xs = some x →
      ∀ y ∈ xs, x.1 ≤ y.1 := by
  intro xs
  induction xs with
  | nil => intro x h; simp [earliest] at h
  | cons a l ih =>
    intro x h y hy
    cases he : earliest l with
    | none =>
      have hl : l = [] := (earliest_eq_none l).mp he
      subst hl
      simp only [earliest] at h
      injection h with h
      rcases List.mem_cons.mp hy with hya | hyl
      · exact hya ▸ h ▸ le_refl _
      · simp at hyl
    | some z =>
      simp only [earliest, he] at h
      injection h with h
      rcases List.mem_cons.mp hy with hya | hyl
      · subst hya
        by_cases hz : z.1 < y.1
        · rw [if_pos hz] at h
          exact h ▸ le_of_lt hz
        · rw [if_neg hz] at h
          exact h ▸ le_refl _
      · by_cases hz : z.1 < a.1
        · rw [if_pos hz] at h
          exact h ▸ ih z he y hyl
        · rw [if_neg hz] at h
          exact h ▸ le_trans (le_of_not_lt hz) (ih z he y hyl)

theorem invokeTimes_first {α ε : Type} :
    ∀ (steps : List (Deferred α ε)) (t : Nat), steps ≠ [] →
      (invokeTimes (runSequential t steps).1).getD 0 0 = t := by
  intro steps t h
  cases steps with
  | nil => exact absurd rfl h
  | cons s rest =>
    cases ho : s.outcome with
    | rejected e => simp [runSequential, ho, invokeTimes, List.filterMap_cons]
    | fulfilled v => simp [runSequential, ho, invokeTimes, List.filterMap_cons]

/-! ### Claim theorems -/

/-- C1.  For every non-empty list of deferred computations all of which
fulfill, `promiseAll` fulfills with the list of their values in input
order, whatever the delays (hence whatever the settlement order); in
particular the source's `p1`, `p2`, `p3` (settling after 1000ms, 2000ms,
1500ms with `"First"`, `"Second"`, `"Third"`) yield
`["First", "Second", "Third"]` at time 2000ms. -/
theorem promiseAll_preserves_input_order :
    (∀ (ps : List (Deferred String String)) (vs : List String),
        ps ≠ [] →
        ps.map (fun p => p.outcome) = vs.map Outcome.fulfilled →
        (promiseAll ps).outcome = .fulfilled vs) ∧
    promiseAll [p1, p2, p3] = ⟨2000, .fulfilled ["First", "Second", "Third"]⟩ := by
  constructor
  · intro ps vs _ h
    obtain ⟨hr, hv⟩ := rejections_of_all_fulfilled ps vs h
    simp [promiseAll, hr, earliest, hv]
  · rfl

/-- Witness for C1 at the source's three promises. -/
theorem promiseAll_preserves_input_order_witness :
    (promiseAll [p1, p2, p3]).outcome = .fulfilled ["First", "Second", "Third"] :=
  promiseAll_preserves_input_order.1 [p1, p2, p3] ["First", "Second", "Third"]
    (by decide) (by decide)

/-- C3.  If at least one input to `promiseAll` rejects, the result is a
rejection carrying the error of a rejecting input that is earliest by
settlement time (its delay is minimal among all rejecting inputs), no
matter how many other inputs fulfill. -/
theorem promiseAll_rejects_with_first_rejection :
    ∀ ps : List (Deferred String String),
      (∃ p ∈ ps, ∃ err, p.outcome = Outcome.rejected err) →
      ∃ te : Nat × String, te ∈ rejections ps ∧
        (promiseAll ps).outcome = .rejected te.2 ∧
        (promiseAll ps).delay = te.1 ∧
        ∀ q ∈ rejections ps, te.1 ≤ q.1 := by
  intro ps h
  obtain ⟨p, hp, err, herr⟩ := h
  have hmem : (p.delay, err) ∈ rejections ps := by
    refine List.mem_filterMap.mpr ⟨p, hp, ?_⟩
    simp [herr]
  have hne : rejections ps ≠ [] := List.ne_nil_of_mem hmem
  cases he : earliest (rejections ps) with
  | none => exact absurd ((earliest_eq_none _).mp he) hne
  | some te =>
    refine ⟨te, earliest_mem _ te he, ?_, ?_, earliest_min _ te he⟩
    · simp [promiseAll, he]
    · simp [promiseAll, he]

/-- Witness for C3: with a fulfilling input first and a rejecting one
second, the combinator rejects with the rejecting input's error. -/
theorem promiseAll_rejects_with_first_rejection_witness :
    ∃ te : Nat × String,
      te ∈ rejections [⟨1000, .fulfilled "First"⟩, ⟨500, .rejected "boom"⟩] ∧
      (promiseAll [⟨1000, .fulfilled "First"⟩, ⟨500, .rejected "boom"⟩]).outcome
        = .rejected te.2 ∧
      (promiseAll [⟨1000, .fulfilled "First"⟩, ⟨500, .rejected "boom"⟩]).delay = te.1 ∧
      ∀ q ∈ rejections [⟨1000, .fulfilled "First"⟩, ⟨500, .rejected "boom"⟩],
        te.1 ≤ q.1 :=
  promiseAll_rejects_with_first_rejection _
    ⟨⟨500, .rejected "boom"⟩, by decide, "boom", rfl⟩

/-- C7.  The parallel combinator applied to the empty list fulfills
immediately (at time 0) with the empty list. -/
theorem promiseAll_empty :
    promiseAll ([] : List (Deferred String String)) = ⟨0, .fulfilled []⟩ := rfl

theorem seq_invoke_step {α ε : Type} (d₀ : Deferred α ε) :
    ∀ (steps : List (Deferred α ε)) (t k : Nat),
      allFulfilled steps = true → k + 1 < steps.length →
      (invokeTimes (runSequential t steps).1).getD k 0 + (steps.getD k d₀).delay
        = (invokeTimes (runSequential t steps).1).getD (k + 1) 0 := by
  intro steps
  induction steps with
  | nil => intro t k _ hk; simp at hk
  | cons s rest ih =>
    intro t k hall hk
    have hs : s.outcome.isFulfilled = true := by
      simp only [allFulfilled, List.all_cons, Bool.and_eq_true] at hall
      exact hall.1
    have hrest : allFulfilled rest = true := by
      simp only [allFulfilled, List.all_cons, Bool.and_eq_true] at hall
      exact hall.2
    cases ho : s.outcome with
    | rejected e => rw [ho] at hs; simp [Outcome.isFulfilled] at hs
    | fulfilled v =>
      have hrun : (runSequential t (s :: rest)).1
          = .invoke t :: .log (t + s.delay) v
            :: (runSequential (t + s.delay) rest).1 := by
        simp [runSequential, ho]
      have hinv : invokeTimes ((runSequential t (s :: rest)).1)
          = t :: invokeTimes ((runSequential (t + s.delay) rest).1) := by
        rw [hrun]; simp [invokeTimes, List.filterMap_cons]
      rw [hinv]
      cases k with
      | zero =>
        have hne : rest ≠ [] := by
          intro hnil
          subst hnil
          simp at hk
        have hfirst := invokeTimes_first rest (t + s.delay) hne
        simpa [List.getD_cons_zero, List.getD_cons_succ] using hfirst.symm
      | succ k' =>
        have hk' : k' + 1 < rest.length := by simpa using hk
        simpa [List.getD_cons_succ] using ih (t + s.delay) k' hrest hk'

theorem seq_log_order {α ε : Type} :
    ∀ (steps : List (Deferred α ε)) (vs : List α) (t : Nat),
      steps.map (fun s => s.outcome) = vs.map Outcome.fulfilled →
      logValues (runSequential t steps).1 = vs := by
  intro steps
  induction steps with
  | nil =>
    intro vs t h
    cases vs with
    | nil => simp [runSequential, logValues]
    | cons v vs => simp at h
  | cons s rest ih =>
    intro vs t h
    cases vs with
    | nil => simp at h
    | cons v vs =>
      simp only [List.map_cons, List.cons.injEq] at h
      obtain ⟨h1, h2⟩ := h
      have htail := ih vs (t + s.delay) h2
      simp only [runSequential, h1, logValues, List.filterMap_cons] at htail ⊢
      simpa using htail

/-- C2.  The sequential combinator invokes step `k + 1` exactly at the
settlement time of step `k` (its invocation time plus its delay), so no
step starts before the previous one has settled; the logged values of a
fully fulfilling chain are exactly the step values in sequence order,
whatever the delays; and the source's three steps (delays 1000/2000/1500)
log `First`, `Second`, `Third` in that order. -/
theorem runSequential_strict_order :
    (∀ (steps : List (Deferred String String)) (t k : Nat),
        allFulfilled steps = true → k + 1 < steps.length →
        (invokeTimes (runSequential t steps).1).getD k 0
            + (steps.getD k ⟨0, Outcome.fulfilled ""⟩).delay
          = (invokeTimes (runSequential t steps).1).getD (k + 1) 0) ∧
    (∀ (steps : List (Deferred String String)) (vs : List String) (t : Nat),
        steps.map (fun s => s.outcome) = vs.map Outcome.fulfilled →
        logValues (runSequential t steps).1 = vs) ∧
    logValues (runSequential 0 demoSteps).1 = ["First", "Second", "Third"] :=
  ⟨seq_invoke_step ⟨0, Outcome.fulfilled ""⟩, seq_log_order, rfl⟩

/-- Witness for C2: in the source's three-step chain started at time 0,
step 1 is invoked exactly when step 0 settles. -/
theorem runSequential_strict_order_witness :
    (invokeTimes (runSequential 0 demoSteps).1).getD 0 0
        + (demoSteps.getD 0 ⟨0, Outcome.fulfilled ""⟩).delay
      = (invokeTimes (runSequential 0 demoSteps).1).getD 1 0 :=
  runSequential_strict_order.1 demoSteps 0 0 (by decide) (by decide)

theorem invokeTimes_cons_invoke {α : Type} (t : Nat) (evs : List (Event α)) :
    invokeTimes (.invoke t :: evs) = t :: invokeTimes evs := by
  simp [invokeTimes, List.filterMap_cons]

theorem invokeTimes_cons_log {α : Type} (s : Nat) (v : α) (evs : List (Event α)) :
    invokeTimes (.log s v :: evs) = invokeTimes evs := by
  simp [invokeTimes, List.filterMap_cons]

/-- C4.  If the steps before position `k` all fulfill and step `k`
rejects, the chain's outcome is exactly that rejection and only steps
`0..k` are ever invoked: the number of invocations is `k + 1`, so steps
`k+1..n` are never started. -/
theorem runSequential_rejection_aborts :
    ∀ (pre post : List (Deferred String String)) (t d : Nat) (e : String),
      allFulfilled pre = true →
      (runSequential t (pre ++ ⟨d, .rejected e⟩ :: post)).2 = .rejected e ∧
      (invokeTimes (runSequential t (pre ++ ⟨d, .rejected e⟩ :: post)).1).length
        = pre.length + 1 := by
  intro pre
  induction pre with
  | nil =>
    intro post t d e _
    constructor
    · simp [runSequential]
    · simp [runSequential, invokeTimes, List.filterMap_cons]
  | cons p pre' ih =>
    intro post t d e hall
    have hp : p.outcome.isFulfilled = true := by
      simp only [allFulfilled, List.all_cons, Bool.and_eq_true] at hall
      exact hall.1
    have hpre : allFulfilled pre' = true := by
      simp only [allFulfilled, List.all_cons, Bool.and_eq_true] at hall
      exact hall.2
    cases ho : p.outcome with
    | rejected er => rw [ho] at hp; simp [Outcome.isFulfilled] at hp
    | fulfilled v =>
      obtain ⟨ih1, ih2⟩ := ih post (t + p.delay) d e hpre
      constructor
      · simpa [runSequential, ho] using ih1
      · have hrun : (runSequential t ((p :: pre') ++ ⟨d, .rejected e⟩ :: post)).1
            = .invoke t :: .log (t + p.delay) v
              :: (runSequential (t + p.delay) (pre' ++ ⟨d, .rejected e⟩ :: post)).1 := by
          simp [runSequential, ho]
        rw [hrun, invokeTimes_cons_invoke, invokeTimes_cons_log,
          List.length_cons, ih2]
        simp

/-- Witness for C4: a fulfilling first step followed by a rejecting one
and a never-run third step rejects with the second step's error after two
invocations. -/
theorem runSequential_rejection_aborts_witness :
    (runSequential 0 ([⟨1000, .fulfilled "First"⟩]
        ++ (⟨5, .rejected "boom"⟩ : Deferred String String)
        :: [⟨2000, .fulfilled "Second"⟩])).2 = .rejected "boom" ∧
    (invokeTimes (runSequential 0 ([⟨1000, .fulfilled "First"⟩]
        ++ (⟨5, .rejected "boom"⟩ : Deferred String String)
        :: [⟨2000, .fulfilled "Second"⟩])).1).length
      = [(⟨1000, .fulfilled "First"⟩ : Deferred String String)].length + 1 :=
  runSequential_rejection_aborts [⟨1000, .fulfilled "First"⟩]
    [⟨2000, .fulfilled "Second"⟩] 0 5 "boom" (by decide)

/-- C8.  The fulfilled value of a step is not threaded into later steps:
running the same chain with the value of one step replaced produces the
very same trace except for that step's own log entry (same invocations
`A` before it and same events `B` after it, at the same settlement time
`s`), and the same chain outcome. -/
theorem runSequential_value_independence :
    ∀ (pre post : List (Deferred String String)) (t d : Nat) (v v' : String),
      allFulfilled pre = true →
      ∃ (A B : List (Event String)) (s : Nat) (out : Outcome Unit String),
        runSequential t (pre ++ ⟨d, .fulfilled v⟩ :: post)
          = (A ++ .log s v :: B, out) ∧
        runSequential t (pre ++ ⟨d, .fulfilled v'⟩ :: post)
          = (A ++ .log s v' :: B, out) := by
  intro pre
  induction pre with
  | nil =>
    intro post t d v v' _
    refine ⟨[.invoke t], (runSequential (t + d) post).1, t + d,
            (runSequential (t + d) post).2, ?_, ?_⟩
    · simp [runSequential]
    · simp [runSequential]
  | cons p pre' ih =>
    intro post t d v v' hall
    have hp : p.outcome.isFulfilled = true := by
      simp only [allFulfilled, List.all_cons, Bool.and_eq_true] at hall
      exact hall.1
    have hpre : allFulfilled pre' = true := by
      simp only [allFulfilled, List.all_cons, Bool.and_eq_true] at hall
      exact hall.2
    cases ho : p.outcome with
    | rejected er => rw [ho] at hp; simp [Outcome.isFulfilled] at hp
    | fulfilled w =>
      obtain ⟨A, B, s, out, h1, h2⟩ := ih post (t + p.delay) d v v' hpre
      refine ⟨.invoke t :: .log (t + p.delay) w :: A, B, s, out, ?_, ?_⟩
      · simp [runSequential, ho, h1]
      · simp [runSequential, ho, h2]

/-- Witness for C8: replacing the middle step's value `"Second"` by
`"Other"` leaves every other event and the outcome unchanged. -/
theorem runSequential_value_independence_witness :
    ∃ (A B : List (Event String)) (s : Nat) (out : Outcome Unit String),
      runSequential 0 ([⟨1000, .fulfilled "First"⟩]
          ++ (⟨2000, .fulfilled "Second"⟩ : Deferred String String)
          :: [⟨1500, .fulfilled "Third"⟩])
        = (A ++ .log s "Second" :: B, out) ∧
      runSequential 0 ([⟨1000, .fulfilled "First"⟩]
          ++ (⟨2000, .fulfilled "Other"⟩ : Deferred String String)
          :: [⟨1500, .fulfilled "Third"⟩])
        = (A ++ .log s "Other" :: B, out) :=
  runSequential_value_independence [⟨1000, .fulfilled "First"⟩]
    [⟨1500, .fulfilled "Third"⟩] 0 2000 "Second" "Other" (by decide)

/-- C5.  The deferred-computation state machine transitions exactly once
out of `pending`, to the terminal state matching the outcome; settling an
already-settled computation (a second call to `settle`) is a no-op, so no
operation leaves a terminal state; `value` and `error` are both absent
while pending and are never populated together. -/
theorem pstate_single_transition :
    ∀ (α ε : Type) (s : PState α ε) (o : Outcome α ε) (v : α) (e : ε),
      settle (.pending : PState α ε) (.fulfilled v) = .fulfilled v ∧
      settle (.pending : PState α ε) (.rejected e) = .rejected e ∧
      settle (.pending : PState α ε) o ≠ .pending ∧
      (s ≠ .pending → settle s o = s) ∧
      (PState.pending : PState α ε).value = none ∧
      (PState.pending : PState α ε).error = none ∧
      (s.value = none ∨ s.error = none) := by
  intro α ε s o v e
  refine ⟨rfl, rfl, ?_, ?_, rfl, rfl, ?_⟩
  · cases o <;> intro h <;> exact PState.noConfusion h
  · intro hs
    cases s with
    | pending => exact absurd rfl hs
    | fulfilled v₂ => rfl
    | rejected e₂ => rfl
  · cases s <;> simp [PState.value, PState.error]

/-- Witness for C5: a fulfilled computation stays fulfilled when `settle`
is called again with a rejection. -/
theorem pstate_single_transition_witness :
    settle (PState.fulfilled "success" : PState String String)
        (Outcome.rejected "failure")
      = PState.fulfilled "success" :=
  (pstate_single_transition String String (.fulfilled "success")
      (.rejected "failure") "success" "failure").2.2.2.1 (by decide)

/-- C6.  Registering a handler on an already-settled deferred computation
fires it exactly once, with the stored value or error, and leaves the cell
unchanged; no later settlement attempt fires it again; and a handler
registered while pending is not lost: it fires exactly once when the cell
settles. -/
theorem register_after_settlement_fires_once :
    ∀ (α ε : Type) (v : α) (e : ε) (id : Nat) (o : Outcome α ε) (hs : List Nat),
      register (⟨.fulfilled v, hs⟩ : DeferredCell α ε) id
        = (⟨.fulfilled v, hs⟩, [(id, .fulfilled v)]) ∧
      register (⟨.rejected e, hs⟩ : DeferredCell α ε) id
        = (⟨.rejected e, hs⟩, [(id, .rejected e)]) ∧
      (settleCell (register (⟨.fulfilled v, hs⟩ : DeferredCell α ε) id).1 o).2
        = [] ∧
      (settleCell (register (⟨.rejected e, hs⟩ : DeferredCell α ε) id).1 o).2
        = [] ∧
      (settleCell (register (⟨.pending, hs⟩ : DeferredCell α ε) id).1 o).2
        = (hs ++ [id]).map (fun j => (j, o)) := by
  intro α ε v e id o hs
  exact ⟨rfl, rfl, rfl, rfl, rfl⟩

/-- C9.  The conditional promise of src/level90/home/js.js rejects with
`"failure"` for every possible random index: every name in `students` has
length at most 5, so the `length > 5` branch that would resolve with
`"success"` is unreachable. -/
theorem myPromise_always_rejects :
    ∀ i : Fin students.length, myPromiseOutcome i = .rejected "failure" := by
  decide

/-- C10.  `add100` computes `points + 100` but discards the result, so the
points counter is unchanged for every starting value. -/
theorem add100_leaves_points_unchanged :
    ∀ points : Int, add100 points = points :=
  fun _ => rfl
